import Mathlib

/-!
Shallow embedding of the temporal-alignment and graph-derivation core of
`wikipedia_scraping.py`, together with theorems settling the specification
claims about it.

Modelling conventions:
* instants (`datetime`) are natural numbers counting seconds; a calendar
  day is `t / 86400`; a `timedelta` is the integer difference of instants;
* Python dicts are association lists in insertion order (dict iteration
  order never influences any output modelled here: lookups are by key and
  day-bucket medians are order-insensitive);
* NetworkX directed graphs are a node list plus an edge list (weighted
  edges carry their accumulated `weight`);
* fallible code (`IndexError` / `ValueError` on empty input) returns
  `Option`;
* the process-wide `random` state used by `random_string` is passed
  explicitly as a `RandState` value;
* a Python list object that `adjacency_calcs` mutates in place is
  modelled by computing, separately, the function result
  (`adjacency_calcs`) and the caller-visible post-state of the input
  collection (`adjacency_calcs_post`).
-/

set_option linter.unusedVariables false

/-- A revision record: the dict fields read by the core, with the derived
fields written by `adjacency_calcs` modelled as `Option` fields
(absent dict key = `none`). -/
structure Rev where
  pageid : Nat
  timestamp : Nat
  size : Int
  username : String
  user : String
  title : String
  position : Option Nat := none
  edit_lag : Option Int := none
  bytes_added : Option Int := none
  unique_users : Option (List String) := none
  unique_users_count : Option Nat := none
  article_age : Option Int := none
deriving DecidableEq

/-- Calendar day of a revision's timestamp (`r['timestamp'].date()`). -/
def tsDate (r : Rev) : Nat := r.timestamp / 86400

/-- Weighted directed graph: `nx.DiGraph` with integer `weight` on edges. -/
structure DiGraph where
  nodes : List String
  edges : List ((String × String) × Nat)
deriving DecidableEq

/-- Unweighted directed graph (used by `make_hyperlink_network`). -/
structure HGraph where
  nodes : List String
  edges : List (String × String)
deriving DecidableEq

/-- NetworkX node insertion: adding an existing node is a no-op. -/
def addNode (ns : List String) (x : String) : List String :=
  if x ∈ ns then ns else ns ++ [x]

/-- Edge-weight accumulation: `if g.has_edge(u,v): weight += 1 else:
add_edge(u,v,weight=1)`. -/
def bumpW : List ((String × String) × Nat) → String × String → List ((String × String) × Nat)
  | [], e => [(e, 1)]
  | (k, w) :: t, e => if k = e then (k, w + 1) :: t else (k, w) :: bumpW t e

/-- `add_edge` on a weighted graph (also inserts both endpoints). -/
def addWeightedEdge (g : DiGraph) (e : String × String) : DiGraph :=
  ⟨addNode (addNode g.nodes e.1) e.2, bumpW g.edges e⟩

/-- Accumulation phase of `make_shared_user_editing_network`: an edge per
consecutive pair of article titles in each editor's revision list. -/
def sharedAcc (d : List (String × List Rev)) : DiGraph :=
  d.foldl (fun g pr =>
    let articles := pr.2.map Rev.title
    (articles.zip articles.tail).foldl addWeightedEdge g) ⟨[], []⟩

/-- Cleanup phase on the edge set: drop edges with `weight < threshold`,
then drop self-loops. -/
def sharedSurviving (d : List (String × List Rev)) (threshold : Int) :
    List ((String × String) × Nat) :=
  ((sharedAcc d).edges.filter (fun p => !decide ((p.2 : Int) < threshold))).filter
    (fun p => !decide (p.1.1 = p.1.2))

/-- `make_shared_user_editing_network(alter_revisions_dict, threshold)`:
accumulate, drop edges below the threshold, drop self-loops, and drop
the nodes left isolated (`nx.isolates`). -/
def make_shared_user_editing_network (d : List (String × List Rev)) (threshold : Int) :
    DiGraph :=
  ⟨(sharedAcc d).nodes.filter (fun n =>
      (sharedSurviving d threshold).any (fun p => decide (p.1.1 = n) || decide (p.1.2 = n))),
   sharedSurviving d threshold⟩

/-- Out-degree of a node: number of edges leaving it. -/
def outDeg (g : DiGraph) (n : String) : Nat :=
  (g.edges.filter (fun p => decide (p.1.1 = n))).length

/-- In-degree of a node: number of edges entering it. -/
def inDeg (g : DiGraph) (n : String) : Nat :=
  (g.edges.filter (fun p => decide (p.1.2 = n))).length

/-- Sort key of `make_article_trajectory` (`key=lambda k: k['timestamp']`;
Python `sorted` is stable, as is insertion sort for a total preorder). -/
def tsLe (a b : Rev) : Prop := a.timestamp ≤ b.timestamp

instance : DecidableRel tsLe := fun a b => Nat.decLe a.timestamp b.timestamp

/-- Placeholder revision for (unreachable) out-of-range list indexing. -/
def dummyRev : Rev :=
  { pageid := 0, timestamp := 0, size := 0, username := "", user := "", title := "" }

/-- `make_article_trajectory(revisions)`: exactly as in the source, the
edge at step `num` joins `sorted_revisions[num]['user']` to
`revisions[num+1]['user']` — the second index is into the ORIGINAL,
unsorted list. -/
def make_article_trajectory (revs : List Rev) : DiGraph :=
  let sorted := List.insertionSort tsLe revs
  (List.range (sorted.length - 1)).foldl (fun g num =>
    addWeightedEdge g ((sorted.getD num dummyRev).user, (revs.getD (num + 1) dummyRev).user))
    ⟨[], []⟩

/-- `add_edge` on an unweighted graph (idempotent on an existing edge). -/
def addSimpleEdge (g : HGraph) (e : String × String) : HGraph :=
  ⟨addNode (addNode g.nodes e.1) e.2, if e ∈ g.edges then g.edges else g.edges ++ [e]⟩

/-- `make_hyperlink_network(hyperlink_dict)`: add `page → link` only when
`link` is itself a key of the mapping. -/
def make_hyperlink_network (d : List (String × List String)) : HGraph :=
  d.foldl (fun g pr =>
    pr.2.foldl (fun g2 link =>
      if link ∈ d.map Prod.fst then addSimpleEdge g2 (pr.1, link) else g2) g) ⟨[], []⟩

/-- One step of the day-bucket counter of `revision_counter`
(`dd[d] += 1` with `KeyError` fallback `dd[d] = 1`). -/
def bumpCount : List (Nat × Nat) → Nat → List (Nat × Nat)
  | [], d => [(d, 1)]
  | (k, v) :: t, d => if k = d then (k, v + 1) :: t else (k, v) :: bumpCount t d

/-- The sparse mapping date → number of revisions on that date. -/
def dayCounts (rs : List Rev) : List (Nat × Nat) :=
  rs.foldl (fun m r => bumpCount m (tsDate r)) []

/-- Lookup in a date → count mapping, with the reindexing fill value 0 for
missing dates. -/
def lookupD : List (Nat × Nat) → Nat → Nat
  | [], _ => 0
  | (k, v) :: t, d => if k = d then v else lookupD t d

/-- Keys of an association list. -/
def keysOf {α : Type} (m : List (Nat × α)) : List Nat := m.map Prod.fst

/-- `np.min` over a list of dates (callers guard against emptiness; the
empty case surfaces as `Option.none` at the call site). -/
def minOf : List Nat → Nat
  | [] => 0
  | k :: t => t.foldl Nat.min k

/-- `np.max` over a list of dates. -/
def maxOf : List Nat → Nat
  | [] => 0
  | k :: t => t.foldl Nat.max k

/-- Number of revisions falling on day `d`. -/
def cnt (rs : List Rev) (d : Nat) : Nat := rs.countP (fun r => decide (tsDate r = d))

/-- Smallest observed revision date (`np.min(list(ts.index))`). -/
def loDate (rs : List Rev) : Nat := minOf (keysOf (dayCounts rs))

/-- Largest observed revision date (`np.max(list(ts.index))`). -/
def hiDate (rs : List Rev) : Nat := maxOf (keysOf (dayCounts rs))

/-- `revision_counter(revisions, min_date, max_date)`: bucket revisions by
day, reindex with fill 0 over `[min observed date, max observed date]`,
then slice to `[min_date, max_date]`. `np.min` of an empty index raises,
modelled as `none`. -/
def revision_counter (rs : List Rev) (min_date max_date : Nat) :
    Option (List (Nat × Nat)) :=
  if (dayCounts rs).isEmpty then none else
  some ((((List.range' (loDate rs) (hiDate rs + 1 - loDate rs))).map
    (fun d => (d, lookupD (dayCounts rs) d))).filter
    (fun p => decide (min_date ≤ p.1) && decide (p.1 ≤ max_date)))

/-- One step of the day-bucket collector of `size_counter`
(`dd[d].append(size)` with `KeyError` fallback `dd[d] = [size]`). -/
def bumpSizes : List (Nat × List Int) → Nat → Int → List (Nat × List Int)
  | [], d, v => [(d, [v])]
  | (k, vs) :: t, d, v =>
    if k = d then (k, vs ++ [v]) :: t else (k, vs) :: bumpSizes t d v

/-- The sparse mapping date → list of sizes of that day's revisions. -/
def daySizes (rs : List Rev) : List (Nat × List Int) :=
  rs.foldl (fun m r => bumpSizes m (tsDate r) r.size) []

/-- `np.median`: sort ascending; odd length takes the middle element, even
length averages the two middle elements (the average `(a + b) / 2` is the
rational `mkRat (a + b) 2`). -/
def median (l : List Int) : Rat :=
  let s := List.insertionSort (fun a b => a ≤ b) l
  if s.length % 2 = 1 then ((s.getD (s.length / 2) 0 : Int) : Rat)
  else mkRat (s.getD (s.length / 2 - 1) 0 + s.getD (s.length / 2) 0) 2

/-- The aggregated sparse mapping date → median size (`dd2` in the source). -/
def dayMedians (rs : List Rev) : List (Nat × Rat) :=
  (daySizes rs).map (fun p => (p.1, median p.2))

/-- Lookup in an association list (missing key = `NaN`, modelled `none`). -/
def lookupOpt {α : Type} : List (Nat × α) → Nat → Option α
  | [], _ => none
  | (k, v) :: t, d => if k = d then some v else lookupOpt t d

/-- `fillna(method='ffill')`: carry the last observed value forward;
a leading gap stays undefined. -/
def ffillGo : Option Rat → List (Nat × Option Rat) → List (Nat × Option Rat)
  | _, [] => []
  | _, (d, some v) :: t => (d, some v) :: ffillGo (some v) t
  | c, (d, none) :: t => (d, c) :: ffillGo c t

/-- Smallest observed date of the median mapping. -/
def loDateM (rs : List Rev) : Nat := minOf (keysOf (dayMedians rs))

/-- Largest observed date of the median mapping. -/
def hiDateM (rs : List Rev) : Nat := maxOf (keysOf (dayMedians rs))

/-- `size_counter(revisions, min_date, max_date)`: bucket sizes by day,
take the day median, reindex (without fill) over
`[min observed date, max observed date]`, forward-fill, then slice to
`[min_date, max_date]`. Empty input makes `np.min` raise, modelled as
`none`. -/
def size_counter (rs : List Rev) (min_date max_date : Nat) :
    Option (List (Nat × Option Rat)) :=
  if (dayMedians rs).isEmpty then none else
  some ((ffillGo none ((List.range' (loDateM rs) (hiDateM rs + 1 - loDateM rs)).map
    (fun d => (d, lookupOpt (dayMedians rs) d)))).filter
    (fun p => decide (min_date ≤ p.1) && decide (p.1 ≤ max_date)))

/-- Value of the latest observation strictly before day `d`
(`none` when there is none). -/
def lastObsLT (m : List (Nat × Rat)) (d : Nat) : Option Rat :=
  let ks := (keysOf m).filter (fun k => decide (k < d))
  if ks.isEmpty then none else lookupOpt m (maxOf ks)

/-- Value of the latest observation at or before day `d`. -/
def lastObsLE (m : List (Nat × Rat)) (d : Nat) : Option Rat := lastObsLT m (d + 1)

/-- The chronologically first observed median value of a revision set. -/
def firstObsValue (rs : List Rev) : Option Rat :=
  lookupOpt (dayMedians rs) (minOf (keysOf (dayMedians rs)))

/-- Sort key of `adjacency_calcs` (`itemgetter('pageid','timestamp')`,
lexicographic; `sorted` is stable). -/
def revLe (a b : Rev) : Prop :=
  a.pageid < b.pageid ∨ (a.pageid = b.pageid ∧ a.timestamp ≤ b.timestamp)

instance : DecidableRel revLe := fun a b => by unfold revLe; infer_instance

/-- The annotation loop of `adjacency_calcs`, processing the sorted list.
`prev` is the record at position `num` as mutated so far; its
`unique_users` LIST OBJECT is shared with the record at `num + 1`, so the
`append` of that record's username also lands in `prev` (the later
rebinding `list(set(...))` only affects position `num + 1`).
`list(set(...))` is modelled as first-occurrence deduplication; CPython
set order is unspecified and only membership and cardinality of the
result are ever claimed or used. -/
def annGo (t0 : Nat) (prev : Rev) : List Rev → List Rev
  | [] => [prev]
  | nx :: rest =>
    let shared := prev.unique_users.getD [] ++ [nx.username]
    let prevC := { prev with unique_users := some shared }
    let nx2 := { nx with
      position := some (prev.position.getD 0 + 1),
      edit_lag := some ((nx.timestamp : Int) - (prev.timestamp : Int)),
      bytes_added := some (nx.size - prev.size),
      unique_users := some shared.eraseDups,
      unique_users_count := some shared.eraseDups.length,
      article_age := some ((nx.timestamp : Int) - (t0 : Int)) }
    prevC :: annGo t0 nx2 rest

/-- Annotation of a (sorted, non-empty) revision list: position 0 is
initialised specially, the rest by `annGo`. -/
def annRevs : List Rev → List Rev
  | [] => []
  | r0 :: rest =>
    let r1 := { r0 with
      position := some 0,
      edit_lag := some 0,
      bytes_added := some r0.size,
      unique_users := some [r0.username],
      unique_users_count := some 1,
      article_age := some 0 }
    annGo r1.timestamp r1 rest

/-- `adjacency_calcs(revisions)`: sort by `(pageid, timestamp)` and write
the derived fields. `revisions[0]` on an empty list raises `IndexError`,
modelled as `none`. -/
def adjacency_calcs (rs : List Rev) : Option (List Rev) :=
  if rs = [] then none else some (annRevs (List.insertionSort revLe rs))

/-- Sort key of `adjacency_calcs` lifted to index-tagged records. -/
def idxRevLe (a b : Nat × Rev) : Prop := revLe a.2 b.2

instance : DecidableRel idxRevLe := fun a b => by unfold idxRevLe; infer_instance

/-- The caller-visible post-state of the list passed to
`adjacency_calcs`: the same dict objects, in their original order, with
the in-place mutations applied. Modelled by tagging each record with its
original index, sorting stably (as the source does), annotating, and
ordering back by original index. -/
def adjacency_calcs_post (rs : List Rev) : List Rev :=
  (List.insertionSort (fun a b : Nat × Rev => a.1 ≤ b.1)
    (((List.insertionSort idxRevLe rs.enum).map Prod.fst).zip
      (annRevs ((List.insertionSort idxRevLe rs.enum).map Prod.snd)))).map Prod.snd

/-- The non-derived fields of a record (those present before
`adjacency_calcs` runs). -/
def baseOf (r : Rev) : Nat × Nat × Int × String × String × String :=
  (r.pageid, r.timestamp, r.size, r.username, r.user, r.title)

/-- All six derived dict keys are present on a record. -/
def fullyDerived (r : Rev) : Prop :=
  r.position.isSome = true ∧ r.edit_lag.isSome = true ∧
  r.bytes_added.isSome = true ∧ r.unique_users.isSome = true ∧
  r.unique_users_count.isSome = true ∧ r.article_age.isSome = true

/-- The process-wide `random` module state: an entropy stream and the
position reached in it. -/
structure RandState where
  seq : Nat → Nat
  ctr : Nat

/-- `random_string(le, letters=False, numerals=True)` — every call site in
`clean_revision` uses this digits-only charset. Each character is a
`random.choice` from `'0'..'9'`, advancing the process-wide state. -/
def random_string (st : RandState) (le : Nat) : String × RandState :=
  (⟨(List.range le).map (fun k => Char.ofNat (48 + st.seq (st.ctr + k) % 10))⟩,
   ⟨st.seq, st.ctr + le⟩)

/-- `[\d]` on an ASCII octet character. -/
def isDigitCh (c : Char) : Bool := decide ('0' ≤ c) && decide (c ≤ '9')

/-- `[Xx]`. -/
def isXCh (c : Char) : Bool := decide (c = 'x') || decide (c = 'X')

/-- One regex group: `[\d]{1,3}` (or `(([\d]{1,3})|([Xx]{1,3}))` when
masked). -/
def groupOk (masked : Bool) (cs : List Char) : Bool :=
  decide (1 ≤ cs.length) && decide (cs.length ≤ 3) &&
    (cs.all isDigitCh || (masked && cs.all isXCh))

/-- Check one candidate decomposition of the regex
`(G\.){3}G` as a PREFIX of `cs` (Python `re.match` anchors only at the
start), where the group lengths are given by `ls`; every group but the
last must be followed by a literal dot, and trailing characters after
the last group are unconstrained. -/
def ipChk (masked : Bool) : List Char → List Nat → Bool
  | _, [] => false
  | cs, l :: ls =>
    decide ((cs.take l).length = l) && groupOk masked (cs.take l) &&
      (if ls.isEmpty then true
       else
         match cs.drop l with
         | '.' :: rest => ipChk masked rest ls
         | _ => false)

/-- `is_ip(ip_string, masked=False)`: the backtracking regex prefix-match
succeeds iff SOME choice of the four group lengths (each 1..3) matches. -/
def is_ip (s : String) (masked : Bool := false) : Bool :=
  [1, 2, 3].any fun l1 => [1, 2, 3].any fun l2 =>
    [1, 2, 3].any fun l3 => [1, 2, 3].any fun l4 =>
      ipChk masked s.data [l1, l2, l3, l4]

/-- Python `str.split('.')` on the character list of a string. -/
def splitDots : List Char → List (List Char)
  | [] => [[]]
  | c :: rest =>
    if c = '.' then [] :: splitDots rest
    else
      match splitDots rest with
      | g :: gs => (c :: g) :: gs
      | [] => [[c]]

/-- `'0' * (3 - len(octet)) + octet`. -/
def padOct (o : List Char) : List Char := List.replicate (3 - o.length) '0' ++ o

/-- `''.join('0' * (3 - len(octet)) + octet for octet in user.split('.'))`. -/
def ipUserid (u : String) : String := ⟨((splitDots u.data).map padOct).flatten⟩

/-- The dict fields of a raw revision that `clean_revision` reads or
writes; `userhidden`/`anon` model the presence of those keys. -/
structure CRev where
  user : String
  userid : String
  userhidden : Bool
  anon : Bool
deriving DecidableEq

/-- `clean_revision(rev)`: substitute placeholder identities for the four
anomalous record shapes. The `random` state is threaded explicitly. -/
def clean_revision (rev : CRev) (st : RandState) : CRev × RandState :=
  if rev.userhidden then
    let p := random_string st 15
    ({ rev with user := p.1, userid := p.1 }, p.2)
  else if rev.anon then
    if rev.user = "Conversion script" then
      let p := random_string st 14
      ({ rev with user := p.1, userid := p.1 }, p.2)
    else if is_ip rev.user then
      ({ rev with userid := ipUserid rev.user }, st)
    else if is_ip rev.user true then
      let p := random_string st 13
      ({ rev with user := p.1, userid := p.1 }, p.2)
    else (rev, st)
  else (rev, st)

/-- An octet string in canonical decimal form: 1–3 digits with no leading
zero (`"0"` itself allowed). -/
def canonOct (o : List Char) : Prop :=
  o.all isDigitCh = true ∧ 1 ≤ o.length ∧ o.length ≤ 3 ∧
    (o = ['0'] ∨ o.head? ≠ some '0')

instance (o : List Char) : Decidable (canonOct o) := by
  unfold canonOct
  infer_instance

/-- Strip the zero padding back off an octet block. -/
def unpadOct (l : List Char) : List Char :=
  match l.dropWhile (fun c => decide (c = '0')) with
  | [] => ['0']
  | r => r

/-- The character list `a ++ "." ++ b ++ "." ++ c ++ "." ++ d` of a
dotted-quad string. -/
def mkIpData (a b c d : List Char) : List Char :=
  a ++ '.' :: (b ++ '.' :: (c ++ '.' :: d))

/-- Input showing the sorted/unsorted index mix-up of
`make_article_trajectory`: two revisions supplied in descending
timestamp order. -/
def c5demo : List Rev :=
  [{ dummyRev with timestamp := 200, user := "b" },
   { dummyRev with timestamp := 100, user := "a" }]

/-- A single revision on day 2 (timestamp 2 · 86400): the observed date
range is the single day `[2, 2]`, strictly inside the requested window
`[1, 3]`. -/
def c2demo : List Rev := [{ dummyRev with timestamp := 172800 }]

/-- Two revisions: size 10 on day 1, size 20 on day 2. Requesting the
window `[2, 2]` makes the first output value the day-2 observation, not
the chronologically first observed value. -/
def c7demo : List Rev :=
  [{ dummyRev with timestamp := 86400, size := 10 },
   { dummyRev with timestamp := 172800, size := 20 }]

/-- Two same-page revisions by distinct editors "a" (t=100) and "b"
(t=200): the aliasing in `adjacency_calcs` appends "b" into the
`unique_users` list of position 0. -/
def c3demo : List Rev :=
  [{ dummyRev with pageid := 1, timestamp := 100, size := 10, username := "a" },
   { dummyRev with pageid := 1, timestamp := 200, size := 25, username := "b" }]

/-- A record with no derived fields yet, to exhibit the in-place
mutation of `adjacency_calcs`. -/
def c8demo : Rev :=
  { dummyRev with pageid := 3, timestamp := 50, size := 7, username := "u" }

/-- A hidden-user revision (`userhidden` key present). -/
def c9hidden : CRev := { user := "", userid := "", userhidden := true, anon := false }

/-- An anonymous bare-IP revision. -/
def c9ip : CRev := { user := "1.2.3.4", userid := "0", userhidden := false, anon := true }

/-- An anonymous bare-IP revision whose first octet has a leading zero:
a distinct user string colliding with `c9ip` under the zero-padding
encoding. -/
def c10ip2 : CRev := { user := "01.2.3.4", userid := "0", userhidden := false, anon := true }

/-- One concrete state of the process-wide random generator. -/
def st0 : RandState := ⟨fun _ => 0, 0⟩

/-- Another concrete state of the process-wide random generator. -/
def st1 : RandState := ⟨fun _ => 1, 0⟩

/-! ## Theorems -/

/-- `cnt` unfolds over a cons cell. -/
theorem cnt_cons (r : Rev) (t : List Rev) (x : Nat) :
    cnt (r :: t) x = cnt t x + (if tsDate r = x then 1 else 0) := by
  by_cases h : tsDate r = x <;> simp [cnt, List.countP_cons, h]

/-- Looking up after one bump: the bumped key gains one, others are
unchanged. -/
theorem lookupD_bumpCount (m : List (Nat × Nat)) (d x : Nat) :
    lookupD (bumpCount m d) x = if x = d then lookupD m d + 1 else lookupD m x := by
  induction m with
  | nil =>
    by_cases h : x = d
    · subst h
      simp [bumpCount, lookupD]
    · have hdx : ¬ d = x := fun hh => h hh.symm
      simp [bumpCount, lookupD, h, hdx]
  | cons kv t ih =>
    obtain ⟨k, v⟩ := kv
    by_cases hkd : k = d
    · subst hkd
      by_cases hx : x = k
      · subst hx
        simp [bumpCount, lookupD]
      · have hkx : ¬ k = x := fun hh => hx hh.symm
        simp [bumpCount, lookupD, hx, hkx]
    · by_cases hx : x = k
      · subst hx
        have hxd : ¬ x = d := hkd
        simp [bumpCount, lookupD, hkd, hxd]
      · have hkx : ¬ k = x := fun hh => hx hh.symm
        simp only [bumpCount, if_neg hkd]
        show (if k = x then v else lookupD (bumpCount t d) x) = _
        rw [if_neg hkx, ih]
        by_cases hxd : x = d
        · rw [if_pos hxd, if_pos hxd]
          show _ = (if k = d then v else lookupD t d) + 1
          rw [if_neg hkd]
        · rw [if_neg hxd, if_neg hxd]
          show _ = if k = x then v else lookupD t x
          rw [if_neg hkx]

/-- Looking up in the day-count fold counts the matching revisions. -/
theorem lookupD_dayFold (rs : List Rev) (m : List (Nat × Nat)) (x : Nat) :
    lookupD (rs.foldl (fun m r => bumpCount m (tsDate r)) m) x
      = lookupD m x + cnt rs x := by
  induction rs generalizing m with
  | nil => simp [cnt]
  | cons r t ih =>
    simp only [List.foldl_cons]
    rw [ih, cnt_cons, lookupD_bumpCount]
    by_cases h : tsDate r = x
    · rw [if_pos h.symm, if_pos h, h]
      omega
    · rw [if_neg (fun hh => h hh.symm), if_neg h]
      omega

/-- `lookupD` in the sparse day-count mapping is the per-day revision
count. -/
theorem lookupD_dayCounts (rs : List Rev) (x : Nat) :
    lookupD (dayCounts rs) x = cnt rs x := by
  have h := lookupD_dayFold rs [] x
  simpa [dayCounts, lookupD] using h

/-- A bump never empties the mapping. -/
theorem bumpCount_ne_nil (m : List (Nat × Nat)) (d : Nat) : bumpCount m d ≠ [] := by
  cases m with
  | nil => simp [bumpCount]
  | cons kv t =>
    obtain ⟨k, v⟩ := kv
    by_cases h : k = d <;> simp [bumpCount, h]

/-- Folding bumps over a non-empty start stays non-empty. -/
theorem foldl_bumpCount_ne_nil (rs : List Rev) (m : List (Nat × Nat)) (hm : m ≠ []) :
    rs.foldl (fun m r => bumpCount m (tsDate r)) m ≠ [] := by
  induction rs generalizing m with
  | nil => simpa
  | cons r t ih =>
    simp only [List.foldl_cons]
    exact ih _ (bumpCount_ne_nil m (tsDate r))

/-- A non-empty revision list has a non-empty day-count mapping. -/
theorem dayCounts_ne_nil (rs : List Rev) (h : rs ≠ []) : dayCounts rs ≠ [] := by
  cases rs with
  | nil => exact absurd rfl h
  | cons r t =>
    unfold dayCounts
    simp only [List.foldl_cons]
    exact foldl_bumpCount_ne_nil t _ (bumpCount_ne_nil [] (tsDate r))

/-- The keys after a bump: unchanged if present, else appended. -/
theorem keysOf_bumpCount (m : List (Nat × Nat)) (d : Nat) :
    keysOf (bumpCount m d) =
      if d ∈ keysOf m then keysOf m else keysOf m ++ [d] := by
  induction m with
  | nil => simp [bumpCount, keysOf]
  | cons kv t ih =>
    obtain ⟨k, v⟩ := kv
    by_cases h : k = d
    · subst h
      simp [bumpCount, keysOf]
    · have hb : bumpCount ((k, v) :: t) d = (k, v) :: bumpCount t d := by
        simp [bumpCount, h]
      have hne : ¬ d = k := fun hh => h hh.symm
      rw [hb]
      show k :: keysOf (bumpCount t d)
          = if d ∈ k :: keysOf t then k :: keysOf t else (k :: keysOf t) ++ [d]
      rw [ih]
      by_cases hd : d ∈ keysOf t
      · rw [if_pos hd, if_pos (List.mem_cons.mpr (Or.inr hd))]
      · rw [if_neg hd, if_neg (by
          intro hc
          rcases List.mem_cons.mp hc with hh | hh
          · exact hne hh
          · exact hd hh)]
        rfl

/-- All stored day counts are positive. -/
theorem bumpCount_values_pos (m : List (Nat × Nat)) (d : Nat)
    (hm : ∀ p ∈ m, 0 < p.2) : ∀ p ∈ bumpCount m d, 0 < p.2 := by
  induction m with
  | nil =>
    intro p hp
    simp [bumpCount] at hp
    simp [hp]
  | cons kv t ih =>
    obtain ⟨k, v⟩ := kv
    intro p hp
    by_cases h : k = d
    · subst h
      simp [bumpCount] at hp
      rcases hp with rfl | hp
      · simp
      · exact hm p (List.mem_cons_of_mem _ hp)
    · simp [bumpCount, h] at hp
      rcases hp with rfl | hp
      · exact hm (k, v) (List.mem_cons_self _ _)
      · exact ih (fun q hq => hm q (List.mem_cons_of_mem _ hq)) p hp

/-- All values of the day-count mapping are positive. -/
theorem dayCounts_values_pos (rs : List Rev) : ∀ p ∈ dayCounts rs, 0 < p.2 := by
  suffices h : ∀ m, (∀ p ∈ m, 0 < p.2) →
      ∀ p ∈ rs.foldl (fun m r => bumpCount m (tsDate r)) m, 0 < p.2 by
    exact h [] (by simp)
  induction rs with
  | nil => intro m hm; exact hm
  | cons r t ih =>
    intro m hm
    simp only [List.foldl_cons]
    exact ih _ (bumpCount_values_pos m (tsDate r) hm)

/-- A key of a positive-valued mapping looks up to a positive value. -/
theorem lookupD_pos_of_mem (m : List (Nat × Nat)) (x : Nat)
    (hm : ∀ p ∈ m, 0 < p.2) (hx : x ∈ keysOf m) : 0 < lookupD m x := by
  induction m with
  | nil => simp [keysOf] at hx
  | cons kv t ih =>
    obtain ⟨k, v⟩ := kv
    have hx2 : x ∈ k :: keysOf t := hx
    by_cases h : k = x
    · subst h
      simpa [lookupD] using hm (k, v) (List.mem_cons_self _ _)
    · have hx3 : x ∈ keysOf t := by
        rcases List.mem_cons.mp hx2 with hh | hh
        · exact absurd hh.symm h
        · exact hh
      simpa [lookupD, h] using
        ih (fun q hq => hm q (List.mem_cons_of_mem _ hq)) hx3

/-- A positive lookup means the key is present. -/
theorem mem_of_lookupD_pos (m : List (Nat × Nat)) (x : Nat)
    (h : 0 < lookupD m x) : x ∈ keysOf m := by
  induction m with
  | nil => simp [lookupD] at h
  | cons kv t ih =>
    obtain ⟨k, v⟩ := kv
    by_cases hk : k = x
    · subst hk
      simp [keysOf]
    · simp [lookupD, hk] at h
      simp [keysOf, hk]
      exact Or.inr (by simpa [keysOf] using ih h)

/-- A date is a key of the day-count mapping iff some revision fell on it. -/
theorem mem_keys_dayCounts (rs : List Rev) (x : Nat) :
    x ∈ keysOf (dayCounts rs) ↔ cnt rs x ≠ 0 := by
  constructor
  · intro hx
    have := lookupD_pos_of_mem _ x (dayCounts_values_pos rs) hx
    rw [lookupD_dayCounts] at this
    omega
  · intro hc
    apply mem_of_lookupD_pos
    rw [lookupD_dayCounts]
    omega

/-- Bumping preserves key distinctness. -/
theorem nodup_keysOf_bumpCount (m : List (Nat × Nat)) (d : Nat)
    (h : (keysOf m).Nodup) : (keysOf (bumpCount m d)).Nodup := by
  rw [keysOf_bumpCount]
  by_cases hd : d ∈ keysOf m
  · simpa [hd]
  · simp [hd, List.nodup_append, h]

/-- The day-count mapping has distinct keys. -/
theorem dayCounts_keys_nodup (rs : List Rev) : (keysOf (dayCounts rs)).Nodup := by
  suffices h : ∀ m, (keysOf m).Nodup →
      (keysOf (rs.foldl (fun m r => bumpCount m (tsDate r)) m)).Nodup by
    exact h [] (by simp [keysOf])
  induction rs with
  | nil => intro m hm; exact hm
  | cons r t ih =>
    intro m hm
    simp only [List.foldl_cons]
    exact ih _ (nodup_keysOf_bumpCount m (tsDate r) hm)

/-- The running minimum is below its seed. -/
theorem foldl_min_le_init (t : List Nat) (a : Nat) : t.foldl Nat.min a ≤ a := by
  induction t generalizing a with
  | nil => exact Nat.le_refl a
  | cons b t ih => exact Nat.le_trans (ih (Nat.min a b)) (Nat.min_le_left a b)

/-- The running minimum is below every element. -/
theorem foldl_min_le_mem (t : List Nat) (a x : Nat) (hx : x ∈ t) :
    t.foldl Nat.min a ≤ x := by
  induction t generalizing a with
  | nil => simp at hx
  | cons b t ih =>
    rcases List.mem_cons.mp hx with rfl | hx2
    · exact Nat.le_trans (foldl_min_le_init t (Nat.min a x)) (Nat.min_le_right a x)
    · exact ih (Nat.min a b) hx2

/-- The running minimum is the seed or an element. -/
theorem foldl_min_mem (t : List Nat) (a : Nat) :
    t.foldl Nat.min a = a ∨ t.foldl Nat.min a ∈ t := by
  induction t generalizing a with
  | nil => exact Or.inl rfl
  | cons b t ih =>
    rcases ih (Nat.min a b) with h | h
    · rcases Nat.le_total a b with hab | hab
      · exact Or.inl (by rw [List.foldl_cons, h]; exact Nat.min_eq_left hab)
      · refine Or.inr (List.mem_cons.mpr (Or.inl ?_))
        rw [List.foldl_cons, h]
        exact Nat.min_eq_right hab
    · exact Or.inr (List.mem_cons.mpr (Or.inr (by simpa using h)))

/-- The running maximum is above its seed. -/
theorem init_le_foldl_max (t : List Nat) (a : Nat) : a ≤ t.foldl Nat.max a := by
  induction t generalizing a with
  | nil => exact Nat.le_refl a
  | cons b t ih => exact Nat.le_trans (Nat.le_max_left a b) (ih (Nat.max a b))

/-- The running maximum is above every element. -/
theorem mem_le_foldl_max (t : List Nat) (a x : Nat) (hx : x ∈ t) :
    x ≤ t.foldl Nat.max a := by
  induction t generalizing a with
  | nil => simp at hx
  | cons b t ih =>
    rcases List.mem_cons.mp hx with rfl | hx2
    · exact Nat.le_trans (Nat.le_max_right a x) (init_le_foldl_max t (Nat.max a x))
    · exact ih (Nat.max a b) hx2

/-- The running maximum is the seed or an element. -/
theorem foldl_max_mem (t : List Nat) (a : Nat) :
    t.foldl Nat.max a = a ∨ t.foldl Nat.max a ∈ t := by
  induction t generalizing a with
  | nil => exact Or.inl rfl
  | cons b t ih =>
    rcases ih (Nat.max a b) with h | h
    · rcases Nat.le_total a b with hab | hab
      · refine Or.inr (List.mem_cons.mpr (Or.inl ?_))
        rw [List.foldl_cons, h]
        exact Nat.max_eq_right hab
      · exact Or.inl (by rw [List.foldl_cons, h]; exact Nat.max_eq_left hab)
    · exact Or.inr (List.mem_cons.mpr (Or.inr (by simpa using h)))

/-- `minOf` bounds every element. -/
theorem minOf_le (l : List Nat) (x : Nat) (hx : x ∈ l) : minOf l ≤ x := by
  cases l with
  | nil => simp at hx
  | cons k t =>
    rcases List.mem_cons.mp hx with rfl | hx2
    · exact foldl_min_le_init t x
    · exact foldl_min_le_mem t k x hx2

/-- Every element bounds `maxOf`. -/
theorem le_maxOf (l : List Nat) (x : Nat) (hx : x ∈ l) : x ≤ maxOf l := by
  cases l with
  | nil => simp at hx
  | cons k t =>
    rcases List.mem_cons.mp hx with rfl | hx2
    · exact init_le_foldl_max t x
    · exact mem_le_foldl_max t k x hx2

/-- `minOf` of a non-empty list is an element. -/
theorem minOf_mem (l : List Nat) (h : l ≠ []) : minOf l ∈ l := by
  cases l with
  | nil => exact absurd rfl h
  | cons k t =>
    rcases foldl_min_mem t k with heq | hmem
    · exact List.mem_cons.mpr (Or.inl heq)
    · exact List.mem_cons.mpr (Or.inr hmem)

/-- `maxOf` of a non-empty list is an element. -/
theorem maxOf_mem (l : List Nat) (h : l ≠ []) : maxOf l ∈ l := by
  cases l with
  | nil => exact absurd rfl h
  | cons k t =>
    rcases foldl_max_mem t k with heq | hmem
    · exact List.mem_cons.mpr (Or.inl heq)
    · exact List.mem_cons.mpr (Or.inr hmem)

/-- Filtering a consecutive date range to a window yields the clipped
consecutive range. -/
theorem filter_range'_interval (n s a b : Nat) :
    (List.range' s n).filter (fun d => decide (a ≤ d) && decide (d ≤ b)) =
      List.range' (max s a) (min (s + n) (b + 1) - max s a) := by
  induction n generalizing s with
  | zero =>
    have h0 : min (s + 0) (b + 1) - max s a = 0 := by omega
    rw [h0]
    rfl
  | succ n ih =>
    rw [List.range'_succ s n 1]
    by_cases h1 : a ≤ s
    · by_cases h2 : s ≤ b
      · rw [List.filter_cons_of_pos (by simp [h1, h2])]
        rw [ih (s + 1)]
        have hm1 : max (s + 1) a = s + 1 := by omega
        have hm0 : max s a = s := by omega
        rw [hm1, hm0]
        have hc : min (s + (n + 1)) (b + 1) - s
            = (min (s + 1 + n) (b + 1) - (s + 1)) + 1 := by omega
        rw [hc, List.range'_succ]
      · rw [List.filter_cons_of_neg (by simp [h2])]
        rw [ih (s + 1)]
        have hc : min (s + 1 + n) (b + 1) - max (s + 1) a = 0 := by omega
        have hc2 : min (s + (n + 1)) (b + 1) - max s a = 0 := by omega
        rw [hc, hc2]
        rfl
    · rw [List.filter_cons_of_neg (by simp [h1])]
      rw [ih (s + 1)]
      have hc : min (s + 1 + n) (b + 1) - max (s + 1) a
          = min (s + (n + 1)) (b + 1) - max s a := by omega
      have hm : max (s + 1) a = max s a := by omega
      rw [hc, hm]

/-- Helper: a member of a filtered edge list makes the filtered length
positive. -/
theorem length_filter_pos {α : Type} (l : List α) (p : α → Bool) (x : α)
    (hx : x ∈ l) (hp : p x = true) : 0 < (l.filter p).length :=
  List.length_pos.mpr (List.ne_nil_of_mem (List.mem_filter.mpr ⟨hx, hp⟩))

/-- Claim C1: for every editor → revision-list mapping and every
threshold, the graph returned by `make_shared_user_editing_network` has
no edge of weight below the threshold, no self-loop, and no node of
total degree zero. -/
theorem make_shared_user_editing_network_invariants
    (d : List (String × List Rev)) (threshold : Int) :
    (∀ p ∈ (make_shared_user_editing_network d threshold).edges,
        ¬((p.2 : Int) < threshold)) ∧
    (∀ p ∈ (make_shared_user_editing_network d threshold).edges, p.1.1 ≠ p.1.2) ∧
    (∀ n ∈ (make_shared_user_editing_network d threshold).nodes,
        1 ≤ inDeg (make_shared_user_editing_network d threshold) n
            + outDeg (make_shared_user_editing_network d threshold) n) := by
  refine ⟨?_, ?_, ?_⟩
  · intro p hp
    have h1 := (List.mem_filter.mp hp).1
    have h2 := (List.mem_filter.mp h1).2
    simpa using h2
  · intro p hp
    have h2 := (List.mem_filter.mp hp).2
    simpa using h2
  · intro n hn
    have h1 := (List.mem_filter.mp hn).2
    rcases List.any_eq_true.mp h1 with ⟨p, hp, hcase⟩
    rcases Bool.or_eq_true_iff.mp hcase with hsrc | htgt
    · have : 0 < outDeg (make_shared_user_editing_network d threshold) n :=
        length_filter_pos _ _ p hp hsrc
      omega
    · have : 0 < inDeg (make_shared_user_editing_network d threshold) n :=
        length_filter_pos _ _ p hp htgt
      omega

/-- Claim C5 (code bug): evaluated on two revisions given in descending
timestamp order (editor "b" at t=200, then editor "a" at t=100), the
graph built by `make_article_trajectory` is the self-loop `a → a` — the
loop body indexes the ORIGINAL, unsorted list at `num + 1` — whereas the
claimed behaviour (edges between editors of adjacent revisions in
ascending timestamp order) would give the single edge `a → b`. -/
theorem make_article_trajectory_unsorted_input_bug :
    make_article_trajectory c5demo = ⟨["a"], [(("a", "a"), 1)]⟩ ∧
    (∀ w : Nat, (("a", "b"), w) ∉ (make_article_trajectory c5demo).edges) := by
  refine ⟨by decide, ?_⟩
  intro w
  have h : (make_article_trajectory c5demo).edges = [(("a", "a"), 1)] := by decide
  rw [h]
  simp

/-- Claim C4 counterexample: on zero input records, the pipelines raise
(`np.min` of an empty date index), modelled as `none` — they do not
return an all-undefined series. -/
theorem empty_input_pipeline_counterexample :
    revision_counter [] 0 5 = none ∧ size_counter [] 0 5 = none := by
  exact ⟨rfl, rfl⟩

/-- Claim C4 (amended): the daily aggregation stage maps zero input
records to an empty sparse mapping (not an error), but the full
pipelines `revision_counter` and `size_counter` then fail on the empty
mapping, since the observed date range (`np.min`/`np.max` of the
observed index) is undefined. -/
theorem empty_input_aggregates_but_pipeline_fails (min_date max_date : Nat) :
    dayCounts [] = [] ∧ daySizes [] = [] ∧
    revision_counter [] min_date max_date = none ∧
    size_counter [] min_date max_date = none :=
  ⟨rfl, rfl, rfl, rfl⟩

/-- Helper: membership in the edge set after one `add_edge`. -/
theorem mem_addSimpleEdge (g : HGraph) (e f : String × String) :
    f ∈ (addSimpleEdge g e).edges ↔ f ∈ g.edges ∨ f = e := by
  unfold addSimpleEdge
  by_cases h : e ∈ g.edges
  · simp only [if_pos h]
    constructor
    · exact Or.inl
    · rintro (hf | rfl)
      · exact hf
      · exact h
  · simp [if_neg h]

/-- Helper: membership in the edge set after folding one page's links. -/
theorem mem_hyperlink_inner (d : List (String × List String)) (p : String)
    (ls : List String) (g : HGraph) (f : String × String) :
    f ∈ (ls.foldl (fun g2 link =>
          if link ∈ d.map Prod.fst then addSimpleEdge g2 (p, link) else g2) g).edges ↔
      f ∈ g.edges ∨ ∃ l ∈ ls, l ∈ d.map Prod.fst ∧ f = (p, l) := by
  induction ls generalizing g with
  | nil => simp
  | cons a t ih =>
    simp only [List.foldl_cons]
    rw [ih]
    by_cases h : a ∈ d.map Prod.fst
    · rw [if_pos h, mem_addSimpleEdge]
      constructor
      · rintro ((hf | rfl) | ⟨l, hl, hk, rfl⟩)
        · exact Or.inl hf
        · exact Or.inr ⟨a, by simp, h, rfl⟩
        · exact Or.inr ⟨l, by simp [hl], hk, rfl⟩
      · rintro (hf | ⟨l, hl, hk, rfl⟩)
        · exact Or.inl (Or.inl hf)
        · rcases List.mem_cons.mp hl with rfl | hl2
          · exact Or.inl (Or.inr rfl)
          · exact Or.inr ⟨l, hl2, hk, rfl⟩
    · rw [if_neg h]
      constructor
      · rintro (hf | ⟨l, hl, hk, rfl⟩)
        · exact Or.inl hf
        · exact Or.inr ⟨l, by simp [hl], hk, rfl⟩
      · rintro (hf | ⟨l, hl, hk, rfl⟩)
        · exact Or.inl hf
        · rcases List.mem_cons.mp hl with rfl | hl2
          · exact absurd hk h
          · exact Or.inr ⟨l, hl2, hk, rfl⟩

/-- Helper: membership in the edge set after folding a list of dict
entries. -/
theorem mem_hyperlink_outer (d entries : List (String × List String))
    (g : HGraph) (f : String × String) :
    f ∈ (entries.foldl (fun g pr =>
          pr.2.foldl (fun g2 link =>
            if link ∈ d.map Prod.fst then addSimpleEdge g2 (pr.1, link) else g2) g) g).edges ↔
      f ∈ g.edges ∨ ∃ pr ∈ entries, ∃ l ∈ pr.2, l ∈ d.map Prod.fst ∧ f = (pr.1, l) := by
  induction entries generalizing g with
  | nil => simp
  | cons e t ih =>
    simp only [List.foldl_cons]
    rw [ih, mem_hyperlink_inner]
    constructor
    · rintro ((hf | ⟨l, hl, hk, rfl⟩) | ⟨pr, hpr, l, hl, hk, rfl⟩)
      · exact Or.inl hf
      · exact Or.inr ⟨e, by simp, l, hl, hk, rfl⟩
      · exact Or.inr ⟨pr, by simp [hpr], l, hl, hk, rfl⟩
    · rintro (hf | ⟨pr, hpr, l, hl, hk, rfl⟩)
      · exact Or.inl (Or.inl hf)
      · rcases List.mem_cons.mp hpr with rfl | hpr2
        · exact Or.inl (Or.inr ⟨l, hl, hk, rfl⟩)
        · exact Or.inr ⟨pr, hpr2, l, hl, hk, rfl⟩

/-- Claim C6: `make_hyperlink_network` contains the edge `page → link`
iff `link` occurs in `page`'s out-link list and `link` is itself a key
of the mapping; in particular, for `{A: [B, C], B: [A]}` (C absent as a
key) the graph has `A→B` and `B→A` but not `A→C`. -/
theorem make_hyperlink_network_edge_iff :
    (∀ (d : List (String × List String)) (p l : String),
      (p, l) ∈ (make_hyperlink_network d).edges ↔
        (∃ ls, (p, ls) ∈ d ∧ l ∈ ls) ∧ l ∈ d.map Prod.fst) ∧
    (("A", "B") ∈ (make_hyperlink_network [("A", ["B", "C"]), ("B", ["A"])]).edges ∧
     ("B", "A") ∈ (make_hyperlink_network [("A", ["B", "C"]), ("B", ["A"])]).edges ∧
     ("A", "C") ∉ (make_hyperlink_network [("A", ["B", "C"]), ("B", ["A"])]).edges) := by
  refine ⟨?_, by decide, by decide, by decide⟩
  intro d p l
  unfold make_hyperlink_network
  rw [mem_hyperlink_outer]
  constructor
  · rintro (hf | ⟨pr, hpr, l2, hl2, hk, hf⟩)
    · simp at hf
    · rcases Prod.mk.injEq .. ▸ hf with ⟨rfl, rfl⟩
      exact ⟨⟨pr.2, by simpa using hpr, hl2⟩, hk⟩
  · rintro ⟨⟨ls, hmem, hl⟩, hk⟩
    exact Or.inr ⟨(p, ls), hmem, l, hl, hk, rfl⟩

/-- Claim C2 counterexample: a single revision on day 2 with requested
window `[1, 3]` (N = 3 days): the returned series has exactly one entry,
not three — `revision_counter` reindexes over the OBSERVED date range
`[2, 2]` before slicing, so dates of the requested window outside the
observed range are absent. -/
theorem revision_counter_window_counterexample :
    revision_counter c2demo 1 3 = some [(2, 1)] ∧
    (revision_counter c2demo 1 3).map List.length ≠ some 3 := by
  exact ⟨by decide, by decide⟩

/-- Claim C2 (amended): for a non-empty revision set, `revision_counter`
returns one value per date in the INTERSECTION of the requested window
`[min_date, max_date]` with the observed range `[loDate, hiDate]`, in
order; each value is the number of revisions on that date; and the
number of non-zero entries equals the number of sparse-mapping entries
(observed dates) inside the requested window. -/
theorem revision_counter_clipped_window (rs : List Rev) (min_date max_date : Nat)
    (h : rs ≠ []) :
    ∃ l, revision_counter rs min_date max_date = some l ∧
      l.map Prod.fst =
        List.range' (max (loDate rs) min_date)
          (min (hiDate rs) max_date + 1 - max (loDate rs) min_date) ∧
      (∀ p ∈ l, p.2 = cnt rs p.1) ∧
      l.countP (fun p => !decide (p.2 = 0)) =
        ((keysOf (dayCounts rs)).filter
          (fun d => decide (min_date ≤ d) && decide (d ≤ max_date))).length := by
  have hdd : dayCounts rs ≠ [] := dayCounts_ne_nil rs h
  have hkeys : keysOf (dayCounts rs) ≠ [] := by
    intro hc
    apply hdd
    cases hdc : dayCounts rs with
    | nil => rfl
    | cons kv t => rw [hdc] at hc; simp [keysOf] at hc
  have hlohi : loDate rs ≤ hiDate rs :=
    le_maxOf _ _ (minOf_mem _ hkeys)
  have hne : (dayCounts rs).isEmpty = false := by
    cases hdc : dayCounts rs with
    | nil => exact absurd hdc hdd
    | cons kv t => rfl
  refine ⟨((List.range' (loDate rs) (hiDate rs + 1 - loDate rs)).map
      (fun d => (d, lookupD (dayCounts rs) d))).filter
      (fun p => decide (min_date ≤ p.1) && decide (p.1 ≤ max_date)), ?_, ?_, ?_, ?_⟩
  · unfold revision_counter
    rw [if_neg (by rw [hne]; exact Bool.false_ne_true)]
  · rw [List.filter_map, List.map_map]
    have hcomp1 : ((fun p : Nat × Nat => decide (min_date ≤ p.1) && decide (p.1 ≤ max_date)) ∘
        (fun d => (d, lookupD (dayCounts rs) d)))
        = fun d => decide (min_date ≤ d) && decide (d ≤ max_date) := rfl
    have hcomp2 : (Prod.fst ∘ (fun d : Nat => (d, lookupD (dayCounts rs) d)))
        = fun d : Nat => d := rfl
    rw [hcomp1, hcomp2, filter_range'_interval]
    have harg : min (loDate rs + (hiDate rs + 1 - loDate rs)) (max_date + 1)
          - max (loDate rs) min_date
        = min (hiDate rs) max_date + 1 - max (loDate rs) min_date := by omega
    rw [harg]
    exact List.map_id' _
  · intro p hp
    have h1 := List.mem_filter.mp hp
    rcases List.mem_map.mp h1.1 with ⟨d, hd, hpd⟩
    rw [← hpd]
    exact lookupD_dayCounts rs d
  · rw [List.filter_map, List.countP_map]
    have hcomp1 : ((fun p : Nat × Nat => decide (min_date ≤ p.1) && decide (p.1 ≤ max_date)) ∘
        (fun d => (d, lookupD (dayCounts rs) d)))
        = fun d => decide (min_date ≤ d) && decide (d ≤ max_date) := rfl
    have hfun : ((fun p : Nat × Nat => !decide (p.2 = 0)) ∘
        (fun d => (d, lookupD (dayCounts rs) d)))
        = fun d => !decide (cnt rs d = 0) := by
      funext d
      simp [Function.comp, lookupD_dayCounts]
    rw [hcomp1, hfun, List.countP_eq_length_filter]
    apply List.Perm.length_eq
    apply (List.perm_ext_iff_of_nodup
      (((List.nodup_range' _ _).filter _).filter _)
      ((dayCounts_keys_nodup rs).filter _)).mpr
    intro x
    constructor
    · intro hx
      have h1 := List.mem_filter.mp hx
      have h2 := List.mem_filter.mp h1.1
      have hcnt : cnt rs x ≠ 0 := by simpa using h1.2
      exact List.mem_filter.mpr ⟨(mem_keys_dayCounts rs x).mpr hcnt, h2.2⟩
    · intro hx
      have h1 := List.mem_filter.mp hx
      have hcnt := (mem_keys_dayCounts rs x).mp h1.1
      have hlo : loDate rs ≤ x := minOf_le _ x h1.1
      have hhi : x ≤ hiDate rs := le_maxOf _ x h1.1
      refine List.mem_filter.mpr ⟨List.mem_filter.mpr ⟨?_, h1.2⟩, ?_⟩
      · exact List.mem_range'_1.mpr ⟨hlo, by omega⟩
      · simpa using hcnt

/-- Witness for the amended Claim C2 theorem: a single revision on day 2
against the window `[0, 5]`. -/
theorem revision_counter_clipped_window_witness :
    c2demo ≠ [] ∧
    (∃ l, revision_counter c2demo 0 5 = some l ∧
      l.map Prod.fst =
        List.range' (max (loDate c2demo) 0)
          (min (hiDate c2demo) 5 + 1 - max (loDate c2demo) 0) ∧
      (∀ p ∈ l, p.2 = cnt c2demo p.1) ∧
      l.countP (fun p => !decide (p.2 = 0)) =
        ((keysOf (dayCounts c2demo)).filter
          (fun d => decide (0 ≤ d) && decide (d ≤ 5))).length) :=
  ⟨by decide, revision_counter_clipped_window c2demo 0 5 (by decide)⟩

/-- A key that looks up `some` is present. -/
theorem mem_of_lookupOpt_some {α : Type} (m : List (Nat × α)) (x : Nat) (v : α)
    (h : lookupOpt m x = some v) : x ∈ keysOf m := by
  induction m with
  | nil => simp [lookupOpt] at h
  | cons kv t ih =>
    obtain ⟨k, w⟩ := kv
    by_cases hk : k = x
    · subst hk
      exact List.mem_cons.mpr (Or.inl rfl)
    · rw [lookupOpt, if_neg hk] at h
      exact List.mem_cons.mpr (Or.inr (ih h))

/-- A key that looks up `none` is absent. -/
theorem not_mem_of_lookupOpt_none {α : Type} (m : List (Nat × α)) (x : Nat)
    (h : lookupOpt m x = none) : x ∉ keysOf m := by
  induction m with
  | nil => simp [keysOf]
  | cons kv t ih =>
    obtain ⟨k, w⟩ := kv
    by_cases hk : k = x
    · subst hk
      rw [lookupOpt, if_pos rfl] at h
      exact absurd h (by simp)
    · rw [lookupOpt, if_neg hk] at h
      intro hc
      rcases List.mem_cons.mp hc with hh | hh
      · exact hk hh.symm
      · exact ih h hh

/-- At an observed date, the latest observation at or before it is the
date's own value. -/
theorem lastObsLE_at_key (m : List (Nat × Rat)) (x : Nat) (hx : x ∈ keysOf m) :
    lastObsLE m x = lookupOpt m x := by
  unfold lastObsLE lastObsLT
  have hxk : x ∈ (keysOf m).filter (fun k => decide (k < x + 1)) :=
    List.mem_filter.mpr ⟨hx, by simp⟩
  have hne : (keysOf m).filter (fun k => decide (k < x + 1)) ≠ [] :=
    List.ne_nil_of_mem hxk
  have hempty : ((keysOf m).filter (fun k => decide (k < x + 1))).isEmpty = false := by
    cases hc : (keysOf m).filter (fun k => decide (k < x + 1)) with
    | nil => exact absurd hc hne
    | cons a t => rfl
  rw [if_neg (by rw [hempty]; exact Bool.false_ne_true)]
  have hmax : maxOf ((keysOf m).filter (fun k => decide (k < x + 1))) = x := by
    have h1 := le_maxOf _ x hxk
    have h2 := maxOf_mem _ hne
    have h3 := List.mem_filter.mp h2
    have h4 : maxOf ((keysOf m).filter (fun k => decide (k < x + 1))) < x + 1 := by
      simpa using h3.2
    omega
  rw [hmax]

/-- At an unobserved date, the latest observation at or before it is the
latest one strictly before it. -/
theorem lastObsLE_not_key (m : List (Nat × Rat)) (x : Nat) (hx : x ∉ keysOf m) :
    lastObsLE m x = lastObsLT m x := by
  unfold lastObsLE lastObsLT
  have hfilter : (keysOf m).filter (fun k => decide (k < x + 1))
      = (keysOf m).filter (fun k => decide (k < x)) := by
    apply List.filter_congr
    intro k hk
    have hkx : k ≠ x := fun hh => hx (hh ▸ hk)
    apply decide_eq_decide.mpr
    omega
  rw [hfilter]

/-- A defined forward-filled value comes from some entry of the sparse
mapping. -/
theorem lastObsLT_some_source (m : List (Nat × Rat)) (d : Nat) (v : Rat)
    (h : lastObsLT m d = some v) :
    ∃ k, k ∈ keysOf m ∧ lookupOpt m k = some v := by
  unfold lastObsLT at h
  by_cases he : ((keysOf m).filter (fun k => decide (k < d))).isEmpty = true
  · rw [if_pos he] at h
    exact absurd h (by simp)
  · rw [if_neg he] at h
    have hne : (keysOf m).filter (fun k => decide (k < d)) ≠ [] := by
      cases hc : (keysOf m).filter (fun k => decide (k < d)) with
      | nil => rw [hc] at he; exact absurd rfl he
      | cons a t => simp
    have hmem := maxOf_mem _ hne
    exact ⟨maxOf ((keysOf m).filter (fun k => decide (k < d))),
      (List.mem_filter.mp hmem).1, h⟩

/-- Below every key, there is no earlier observation. -/
theorem lastObsLT_none_below (m : List (Nat × Rat)) (s : Nat)
    (h : ∀ k ∈ keysOf m, ¬ k < s) : lastObsLT m s = none := by
  unfold lastObsLT
  have hfil : (keysOf m).filter (fun k => decide (k < s)) = [] := by
    rw [List.filter_eq_nil_iff]
    intro k hk
    simpa using h k hk
  rw [hfil]
  rfl

/-- Forward-filling the reindexed series realises, at every date, the
latest observation at or before that date. -/
theorem ffill_range_spec (m : List (Nat × Rat)) (n : Nat) :
    ∀ (s : Nat) (c : Option Rat), c = lastObsLT m s →
    ffillGo c ((List.range' s n).map (fun d => (d, lookupOpt m d)))
      = (List.range' s n).map (fun d => (d, lastObsLE m d)) := by
  induction n with
  | zero => intro s c _; rfl
  | succ n ih =>
    intro s c hc
    rw [List.range'_succ s n 1]
    simp only [List.map_cons]
    cases hl : lookupOpt m s with
    | some v =>
      have hkey : s ∈ keysOf m := mem_of_lookupOpt_some m s v hl
      have hle : lastObsLE m s = some v := by rw [lastObsLE_at_key m s hkey, hl]
      simp only [ffillGo]
      rw [ih (s + 1) (some v) (by rw [← hle]; rfl), hle]
    | none =>
      have hkey : s ∉ keysOf m := not_mem_of_lookupOpt_none m s hl
      have hle : lastObsLE m s = c := by rw [lastObsLE_not_key m s hkey, ← hc]
      simp only [ffillGo]
      rw [ih (s + 1) c (by rw [← hle]; rfl), hle]

/-- A bump of the size buckets never empties the mapping. -/
theorem bumpSizes_ne_nil (m : List (Nat × List Int)) (d : Nat) (v : Int) :
    bumpSizes m d v ≠ [] := by
  cases m with
  | nil => simp [bumpSizes]
  | cons kv t =>
    obtain ⟨k, vs⟩ := kv
    by_cases h : k = d <;> simp [bumpSizes, h]

/-- Folding size bumps over a non-empty start stays non-empty. -/
theorem foldl_bumpSizes_ne_nil (rs : List Rev) (m : List (Nat × List Int)) (hm : m ≠ []) :
    rs.foldl (fun m r => bumpSizes m (tsDate r) r.size) m ≠ [] := by
  induction rs generalizing m with
  | nil => simpa
  | cons r t ih =>
    simp only [List.foldl_cons]
    exact ih _ (bumpSizes_ne_nil m (tsDate r) r.size)

/-- A non-empty revision list has a non-empty median mapping. -/
theorem dayMedians_ne_nil (rs : List Rev) (h : rs ≠ []) : dayMedians rs ≠ [] := by
  unfold dayMedians
  intro hc
  have hds : daySizes rs = [] := by
    cases hd : daySizes rs with
    | nil => rfl
    | cons kv t => rw [hd] at hc; simp at hc
  apply absurd hds
  cases rs with
  | nil => exact absurd rfl h
  | cons r t =>
    unfold daySizes
    simp only [List.foldl_cons]
    exact foldl_bumpSizes_ne_nil t _ (bumpSizes_ne_nil [] (tsDate r) r.size)

/-- Claim C7 counterexample: sizes 10 (day 1) and 20 (day 2), window
`[2, 2]`: the first (only) output value is 20, the nearest prior
observation — not the chronologically first observed value 10, even
though an observation exists at or before the first output date. -/
theorem size_counter_first_value_counterexample :
    size_counter c7demo 2 2 = some [(2, some 20)] ∧
    firstObsValue c7demo = some 10 ∧ (20 : Rat) ≠ 10 := by
  refine ⟨by decide, by decide, by decide⟩

/-- Claim C7 (amended): for a non-empty revision set, every value that
`size_counter` emits is the latest observed day-median at or before that
value's date (so the first output value equals the most recent
observation at or before the first output date, which need not be the
chronologically first observation), and in particular every defined
output value is a value of the aggregated sparse date → median
mapping. -/
theorem size_counter_forward_fill (rs : List Rev) (min_date max_date : Nat)
    (h : rs ≠ []) :
    ∃ l, size_counter rs min_date max_date = some l ∧
      (∀ p ∈ l, p.2 = lastObsLE (dayMedians rs) p.1) ∧
      (∀ p ∈ l, ∀ v : Rat, p.2 = some v →
        ∃ d2, d2 ∈ keysOf (dayMedians rs) ∧ lookupOpt (dayMedians rs) d2 = some v) := by
  have hdm : dayMedians rs ≠ [] := dayMedians_ne_nil rs h
  have hne : (dayMedians rs).isEmpty = false := by
    cases hdc : dayMedians rs with
    | nil => exact absurd hdc hdm
    | cons kv t => rfl
  have hinit : (none : Option Rat) = lastObsLT (dayMedians rs) (loDateM rs) := by
    rw [lastObsLT_none_below]
    intro k hk
    have h1 := minOf_le _ k hk
    have h2 : loDateM rs = minOf (keysOf (dayMedians rs)) := rfl
    omega
  have hffill := ffill_range_spec (dayMedians rs) (hiDateM rs + 1 - loDateM rs)
    (loDateM rs) none hinit
  refine ⟨((ffillGo none ((List.range' (loDateM rs) (hiDateM rs + 1 - loDateM rs)).map
      (fun d => (d, lookupOpt (dayMedians rs) d)))).filter
      (fun p => decide (min_date ≤ p.1) && decide (p.1 ≤ max_date))), ?_, ?_, ?_⟩
  · unfold size_counter
    rw [if_neg (by rw [hne]; exact Bool.false_ne_true)]
  · intro p hp
    rw [hffill] at hp
    have h1 := List.mem_filter.mp hp
    rcases List.mem_map.mp h1.1 with ⟨d, hd, hpd⟩
    rw [← hpd]
  · intro p hp v hv
    rw [hffill] at hp
    have h1 := List.mem_filter.mp hp
    rcases List.mem_map.mp h1.1 with ⟨d, hd, hpd⟩
    rw [← hpd] at hv
    exact lastObsLT_some_source (dayMedians rs) (d + 1) v hv

/-- Witness for the amended Claim C7 theorem at the concrete two-day
input. -/
theorem size_counter_forward_fill_witness :
    c7demo ≠ [] ∧
    (∃ l, size_counter c7demo 2 2 = some l ∧
      (∀ p ∈ l, p.2 = lastObsLE (dayMedians c7demo) p.1) ∧
      (∀ p ∈ l, ∀ v : Rat, p.2 = some v →
        ∃ d2, d2 ∈ keysOf (dayMedians c7demo) ∧
          lookupOpt (dayMedians c7demo) d2 = some v)) :=
  ⟨by decide, size_counter_forward_fill c7demo 2 2 (by decide)⟩

/-- Claim C3 (code bug): on two same-page revisions by editors "a" then
"b", the record at position 0 ends with `unique_users = ["a", "b"]` —
the editor of position 1 leaks into position 0's list because
`revisions[num+1]['unique_users'] = rev['unique_users']` aliases the
same list object before appending. The claimed value (the set of
editors at positions 0..0) is `{"a"}`. `unique_users_count` is computed
from the deduplicated set BEFORE the later corruption and is correct
(`[1, 2]`), as are `position`, `bytes_added` and `edit_lag`. -/
theorem adjacency_calcs_unique_users_aliasing_bug :
    (adjacency_calcs c3demo).map (fun l => l.map (fun r => r.unique_users)) =
      some [some ["a", "b"], some ["a", "b"]] ∧
    (adjacency_calcs c3demo).map (fun l => l.map (fun r => r.unique_users_count)) =
      some [some 1, some 2] ∧
    (adjacency_calcs c3demo).map (fun l => l.map (fun r => r.position)) =
      some [some 0, some 1] ∧
    (adjacency_calcs c3demo).map (fun l => l.map (fun r => r.bytes_added)) =
      some [some 10, some 15] ∧
    (adjacency_calcs c3demo).map (fun l => l.map (fun r => r.edit_lag)) =
      some [some 0, some 100] := by
  refine ⟨by decide, by decide, by decide, by decide, by decide⟩

/-- The annotation loop output is one longer than its remaining input. -/
theorem annGo_length (t0 : Nat) (rest : List Rev) :
    ∀ prev : Rev, (annGo t0 prev rest).length = rest.length + 1 := by
  induction rest with
  | nil => intro prev; rfl
  | cons nx rest2 ih =>
    intro prev
    simp only [annGo, List.length_cons, ih]

/-- Annotation preserves the list length. -/
theorem annRevs_length (l : List Rev) : (annRevs l).length = l.length := by
  cases l with
  | nil => rfl
  | cons r0 rest => simp [annRevs, annGo_length]

/-- Annotation rewrites only the derived (`Option`) fields: the base
fields at each position are untouched. -/
theorem annGo_map_base (t0 : Nat) (rest : List Rev) :
    ∀ prev : Rev, (annGo t0 prev rest).map baseOf = baseOf prev :: rest.map baseOf := by
  induction rest with
  | nil => intro prev; rfl
  | cons nx rest2 ih =>
    intro prev
    simp only [annGo, List.map_cons]
    rw [ih]
    rfl

/-- Annotation preserves the base fields pointwise. -/
theorem annRevs_map_base (l : List Rev) : (annRevs l).map baseOf = l.map baseOf := by
  cases l with
  | nil => rfl
  | cons r0 rest =>
    show (annGo _ _ rest).map baseOf = _
    rw [annGo_map_base]
    rfl

/-- Every record coming out of the annotation loop carries all derived
fields, provided the record carried in does. -/
theorem annGo_derived (t0 : Nat) (rest : List Rev) :
    ∀ prev : Rev, fullyDerived prev → ∀ r ∈ annGo t0 prev rest, fullyDerived r := by
  induction rest with
  | nil =>
    intro prev hp r hr
    rcases List.mem_cons.mp hr with rfl | hr2
    · exact hp
    · simp at hr2
  | cons nx rest2 ih =>
    intro prev hp r hr
    simp only [annGo] at hr
    rcases List.mem_cons.mp hr with rfl | hr2
    · exact ⟨hp.1, hp.2.1, hp.2.2.1, rfl, hp.2.2.2.2.1, hp.2.2.2.2.2⟩
    · exact ih _ (by exact ⟨rfl, rfl, rfl, rfl, rfl, rfl⟩) r hr2

/-- Every annotated record carries all derived fields. -/
theorem annRevs_derived (l : List Rev) : ∀ r ∈ annRevs l, fullyDerived r := by
  cases l with
  | nil => intro r hr; simp [annRevs] at hr
  | cons r0 rest =>
    intro r hr
    exact annGo_derived _ rest _ (by exact ⟨rfl, rfl, rfl, rfl, rfl, rfl⟩) r hr

/-- The caller-visible records after `adjacency_calcs` are, as a
multiset, the input records with the derived fields written: the base
fields are preserved. -/
theorem adjacency_calcs_post_base_perm (rs : List Rev) :
    List.Perm ((adjacency_calcs_post rs).map baseOf) (rs.map baseOf) := by
  unfold adjacency_calcs_post
  rw [List.map_map]
  have hlen : (annRevs ((List.insertionSort idxRevLe rs.enum).map Prod.snd)).length ≤
      ((List.insertionSort idxRevLe rs.enum).map Prod.fst).length := by
    rw [annRevs_length, List.length_map, List.length_map]
  refine List.Perm.trans (List.Perm.map _ (List.perm_insertionSort _ _)) ?_
  have h1 : (((List.insertionSort idxRevLe rs.enum).map Prod.fst).zip
      (annRevs ((List.insertionSort idxRevLe rs.enum).map Prod.snd))).map
        (baseOf ∘ Prod.snd)
      = (annRevs ((List.insertionSort idxRevLe rs.enum).map Prod.snd)).map baseOf := by
    rw [← List.map_map, List.map_snd_zip _ _ hlen]
  rw [h1, annRevs_map_base, List.map_map]
  refine List.Perm.trans (List.Perm.map _ (List.perm_insertionSort _ _)) ?_
  rw [← List.map_map, List.enum_map_snd]

/-- Claim C8 counterexample: after `adjacency_calcs` runs on a
single-record list, the caller's record has gained the derived fields —
the input observed after the call differs from the input before it. -/
theorem adjacency_calcs_post_counterexample :
    adjacency_calcs_post [c8demo] ≠ [c8demo] := by decide

/-- Claim C8 (amended): `clean_revision` and the aggregation/graph
functions read their inputs without modifying them, but
`adjacency_calcs` writes the derived fields into the caller's records
in place: after the call, the caller's collection consists (as a
multiset) of the same records — base fields unchanged — with every
record carrying all six derived fields. -/
theorem adjacency_calcs_mutates_input_with_derived_fields (rs : List Rev) :
    List.Perm ((adjacency_calcs_post rs).map baseOf) (rs.map baseOf) ∧
    ∀ r ∈ adjacency_calcs_post rs, fullyDerived r := by
  refine ⟨adjacency_calcs_post_base_perm rs, ?_⟩
  intro r hr
  unfold adjacency_calcs_post at hr
  rcases List.mem_map.mp hr with ⟨pr, hpr, rfl⟩
  have hpr2 := (List.perm_insertionSort _ _).mem_iff.mp hpr
  obtain ⟨i, r2⟩ := pr
  have hsnd : r2 ∈ annRevs ((List.insertionSort idxRevLe rs.enum).map Prod.snd) :=
    (List.of_mem_zip hpr2).2
  exact annRevs_derived _ r2 hsnd

/-- Claim C9 counterexample: two runs of `clean_revision` on the SAME
hidden-user record, from two different states of the process-wide
`random` generator, produce different outputs — the synthetic identity
is a function of the global random state, not of the record's fields. -/
theorem clean_revision_random_state_counterexample :
    (clean_revision c9hidden st0).1 ≠ (clean_revision c9hidden st1).1 := by decide

/-- Claim C9 (amended): `clean_revision` is deterministic in the record
alone only outside the random branches: for records that are not
hidden-user and not conversion-script or masked-IP anonymous records
(i.e. ordinary identities and bare-IP anonymous identities), the output
does not depend on the process-wide random state. Hidden-user,
conversion-script and masked-IP placeholders DO depend on it. -/
theorem clean_revision_deterministic_cases (r : CRev) (s1 s2 : RandState)
    (h : r.userhidden = false ∧ (r.anon = false ∨
      (r.user ≠ "Conversion script" ∧
        (is_ip r.user = true ∨ is_ip r.user true = false)))) :
    (clean_revision r s1).1 = (clean_revision r s2).1 := by
  obtain ⟨hh, hrest⟩ := h
  unfold clean_revision
  rcases hrest with hanon | ⟨hcs, hip⟩
  · simp [hh, hanon]
  · cases han : r.anon with
    | false => simp [hh, han]
    | true =>
      rcases hip with hipT | hmaskF
      · simp [hh, hcs, hipT]
      · cases hipv : is_ip r.user with
        | false => simp [hh, hcs, hipv, hmaskF]
        | true => simp [hh, hcs, hipv]

/-- Witness for the amended Claim C9 theorem: a bare-IP anonymous record
cleaned from two different random states gives the same record. -/
theorem clean_revision_deterministic_cases_witness :
    (c9ip.userhidden = false ∧ (c9ip.anon = false ∨
      (c9ip.user ≠ "Conversion script" ∧
        (is_ip c9ip.user = true ∨ is_ip c9ip.user true = false)))) ∧
    (clean_revision c9ip st0).1 = (clean_revision c9ip st1).1 :=
  ⟨by decide, clean_revision_deterministic_cases c9ip st0 st1 (by decide)⟩

/-- A digit character is not a dot. -/
theorem no_dot_of_digits (o : List Char) (h : o.all isDigitCh = true) :
    ∀ ch ∈ o, ¬ ch = '.' := by
  intro ch hc hdot
  have hd := List.all_eq_true.mp h ch hc
  rw [hdot] at hd
  exact absurd hd (by decide)

/-- Splitting on dots peels off a dot-free leading octet. -/
theorem splitDots_append_dot (o : List Char) (rest : List Char)
    (h : ∀ ch ∈ o, ¬ ch = '.') :
    splitDots (o ++ '.' :: rest) = o :: splitDots rest := by
  induction o with
  | nil => simp [splitDots]
  | cons ch o2 ih =>
    have hch : ¬ ch = '.' := h ch (by simp)
    simp only [List.cons_append, splitDots, if_neg hch, List.append_eq]
    rw [ih (fun x hx => h x (by simp [hx]))]

/-- Splitting a dot-free string yields the single piece. -/
theorem splitDots_no_dot (o : List Char) (h : ∀ ch ∈ o, ¬ ch = '.') :
    splitDots o = [o] := by
  induction o with
  | nil => rfl
  | cons ch o2 ih =>
    have hch : ¬ ch = '.' := h ch (by simp)
    simp only [splitDots, if_neg hch]
    rw [ih (fun x hx => h x (by simp [hx]))]

/-- Splitting a dotted quad of dot-free octets recovers the octets. -/
theorem splitDots_mkIpData (a b c d : List Char)
    (ha : ∀ ch ∈ a, ¬ ch = '.') (hb : ∀ ch ∈ b, ¬ ch = '.')
    (hc : ∀ ch ∈ c, ¬ ch = '.') (hd : ∀ ch ∈ d, ¬ ch = '.') :
    splitDots (mkIpData a b c d) = [a, b, c, d] := by
  unfold mkIpData
  rw [splitDots_append_dot a _ ha, splitDots_append_dot b _ hb,
      splitDots_append_dot c _ hc, splitDots_no_dot d hd]

/-- A padded octet block has length exactly 3. -/
theorem padOct_length (o : List Char) (h : o.length ≤ 3) : (padOct o).length = 3 := by
  simp [padOct]
  omega

/-- Dropping leading zeros skips the padding. -/
theorem dropWhile_replicate_zero (k : Nat) (o : List Char) :
    (List.replicate k '0' ++ o).dropWhile (fun c => decide (c = '0'))
      = o.dropWhile (fun c => decide (c = '0')) := by
  induction k with
  | zero => simp
  | succ n ih => simp [List.replicate_succ, List.dropWhile_cons, ih]

/-- Unpadding inverts padding on canonical octets. -/
theorem unpad_padOct (o : List Char) (h : canonOct o) : unpadOct (padOct o) = o := by
  obtain ⟨hdig, h1, h3, hcan⟩ := h
  unfold unpadOct padOct
  rw [dropWhile_replicate_zero]
  rcases hcan with rfl | hhead
  · rfl
  · cases o with
    | nil => simp at h1
    | cons c0 o2 =>
      have hc0 : ¬ c0 = '0' := by
        intro hh
        exact hhead (by rw [hh]; rfl)
      rw [List.dropWhile_cons]
      simp [hc0]

/-- Padding is injective on canonical octets. -/
theorem padOct_inj (o1 o2 : List Char) (h1 : canonOct o1) (h2 : canonOct o2)
    (h : padOct o1 = padOct o2) : o1 = o2 := by
  rw [← unpad_padOct o1 h1, ← unpad_padOct o2 h2, h]

/-- The concatenation of four padded canonical octets determines the
octets. -/
theorem encode4_inj (a b c d a2 b2 c2 d2 : List Char)
    (ha : canonOct a) (hb : canonOct b) (hc : canonOct c) (hd : canonOct d)
    (ha2 : canonOct a2) (hb2 : canonOct b2) (hc2 : canonOct c2) (hd2 : canonOct d2)
    (h : padOct a ++ (padOct b ++ (padOct c ++ padOct d))
       = padOct a2 ++ (padOct b2 ++ (padOct c2 ++ padOct d2))) :
    a = a2 ∧ b = b2 ∧ c = c2 ∧ d = d2 := by
  obtain ⟨e1, h⟩ := List.append_inj h
    (by rw [padOct_length a ha.2.2.1, padOct_length a2 ha2.2.2.1])
  obtain ⟨e2, h⟩ := List.append_inj h
    (by rw [padOct_length b hb.2.2.1, padOct_length b2 hb2.2.2.1])
  obtain ⟨e3, e4⟩ := List.append_inj h
    (by rw [padOct_length c hc.2.2.1, padOct_length c2 hc2.2.2.1])
  exact ⟨padOct_inj a a2 ha ha2 e1, padOct_inj b b2 hb hb2 e2,
    padOct_inj c c2 hc hc2 e3, padOct_inj d d2 hd hd2 e4⟩

/-- The userid encoding of a dotted quad is the concatenation of the
four padded octets. -/
theorem ipUserid_quad (u : String) (a b c d : List Char)
    (hu : u.data = mkIpData a b c d)
    (had : a.all isDigitCh = true) (hbd : b.all isDigitCh = true)
    (hcd : c.all isDigitCh = true) (hdd : d.all isDigitCh = true) :
    (ipUserid u).data = padOct a ++ (padOct b ++ (padOct c ++ padOct d)) := by
  unfold ipUserid
  rw [hu, splitDots_mkIpData a b c d (no_dot_of_digits a had) (no_dot_of_digits b hbd)
    (no_dot_of_digits c hcd) (no_dot_of_digits d hdd)]
  simp [List.flatten]

/-- Checking one non-final regex group consumes the octet and its dot. -/
theorem ipChk_step (masked : Bool) (o rest : List Char) (ls : List Nat)
    (h1 : 1 ≤ o.length) (h3 : o.length ≤ 3) (hdig : o.all isDigitCh = true)
    (hne : ls ≠ []) :
    ipChk masked (o ++ '.' :: rest) (o.length :: ls) = ipChk masked rest ls := by
  have hempty : ls.isEmpty = false := by
    cases ls with
    | nil => exact absurd rfl hne
    | cons x t => rfl
  simp [ipChk, hempty, List.take_left, List.drop_left, groupOk, hdig, h1, h3]

/-- Checking the final regex group succeeds on a 1–3 digit octet. -/
theorem ipChk_last (masked : Bool) (o : List Char)
    (h1 : 1 ≤ o.length) (h3 : o.length ≤ 3) (hdig : o.all isDigitCh = true) :
    ipChk masked o [o.length] = true := by
  simp [ipChk, groupOk, List.take_length, hdig, h1, h3]

/-- A dotted quad of 1–3 digit octets passes `is_ip`. -/
theorem is_ip_of_quad (u : String) (a b c d : List Char)
    (hu : u.data = mkIpData a b c d)
    (ha1 : 1 ≤ a.length) (ha3 : a.length ≤ 3) (had : a.all isDigitCh = true)
    (hb1 : 1 ≤ b.length) (hb3 : b.length ≤ 3) (hbd : b.all isDigitCh = true)
    (hc1 : 1 ≤ c.length) (hc3 : c.length ≤ 3) (hcd : c.all isDigitCh = true)
    (hd1 : 1 ≤ d.length) (hd3 : d.length ≤ 3) (hdd : d.all isDigitCh = true) :
    is_ip u = true := by
  have hchk : ipChk false u.data [a.length, b.length, c.length, d.length] = true := by
    rw [hu]
    unfold mkIpData
    rw [ipChk_step false a _ _ ha1 ha3 had (by simp),
        ipChk_step false b _ _ hb1 hb3 hbd (by simp),
        ipChk_step false c _ _ hc1 hc3 hcd (by simp),
        ipChk_last false d hd1 hd3 hdd]
  have hmem : ∀ n : Nat, 1 ≤ n → n ≤ 3 → n ∈ [1, 2, 3] := by
    intro n hn1 hn3
    interval_cases n <;> simp
  unfold is_ip
  apply List.any_eq_true.mpr
  refine ⟨a.length, hmem _ ha1 ha3, ?_⟩
  apply List.any_eq_true.mpr
  refine ⟨b.length, hmem _ hb1 hb3, ?_⟩
  apply List.any_eq_true.mpr
  refine ⟨c.length, hmem _ hc1 hc3, ?_⟩
  apply List.any_eq_true.mpr
  exact ⟨d.length, hmem _ hd1 hd3, hchk⟩

/-- A dotted quad beginning with a digit is not the string
`"Conversion script"`. -/
theorem quad_ne_conversion (u : String) (a b c d : List Char)
    (hu : u.data = mkIpData a b c d)
    (ha1 : 1 ≤ a.length) (had : a.all isDigitCh = true) :
    u ≠ "Conversion script" := by
  intro hcs
  have hdata : u.data = "Conversion script".data := by rw [hcs]
  rw [hu] at hdata
  cases a with
  | nil => simp at ha1
  | cons c0 a2 =>
    have hd0 : isDigitCh c0 = true := List.all_eq_true.mp had c0 (by simp)
    have hc0 : c0 = 'C' := by
      have hh := congrArg List.head? hdata
      simpa [mkIpData] using hh
    rw [hc0] at hd0
    exact absurd hd0 (by decide)

/-- Claim C10 counterexample: the users `"1.2.3.4"` and `"01.2.3.4"` are
distinct, both match the IP regex, and both are encoded to the same
12-digit userid `"001002003004"` — zero-padding is not injective when an
octet may carry a leading zero. -/
theorem ip_userid_collision_counterexample :
    c9ip.user ≠ c10ip2.user ∧
    (clean_revision c9ip st0).1.userid = "001002003004" ∧
    (clean_revision c10ip2 st0).1.userid = "001002003004" := by
  refine ⟨by decide, by decide, by decide⟩

/-- Claim C10 (amended): for an anonymous, non-hidden revision whose
user is a dotted quad of canonical octets (1–3 digits, no leading zero),
`clean_revision` leaves the user unchanged, consumes no random state,
and sets the userid to the concatenation of the four zero-padded
octets — a string of exactly 12 decimal digits; and on canonical
dotted quads this encoding is injective. (Unrestricted, the claim is
false: octets with leading zeros collide.) -/
theorem clean_revision_bare_ip (r : CRev) (st : RandState) (a b c d : List Char)
    (hanon : r.anon = true) (hhid : r.userhidden = false)
    (hdata : r.user.data = mkIpData a b c d)
    (ha : canonOct a) (hb : canonOct b) (hc : canonOct c) (hd : canonOct d) :
    (clean_revision r st).1.user = r.user ∧
    (clean_revision r st).2 = st ∧
    (clean_revision r st).1.userid = ipUserid r.user ∧
    (ipUserid r.user).length = 12 ∧
    (ipUserid r.user).data.all isDigitCh = true ∧
    (∀ (u2 : String) (a2 b2 c2 d2 : List Char),
      u2.data = mkIpData a2 b2 c2 d2 →
      canonOct a2 → canonOct b2 → canonOct c2 → canonOct d2 →
      ipUserid u2 = ipUserid r.user → u2 = r.user) := by
  have hCS : r.user ≠ "Conversion script" :=
    quad_ne_conversion r.user a b c d hdata ha.2.1 ha.1
  have hip : is_ip r.user = true :=
    is_ip_of_quad r.user a b c d hdata ha.2.1 ha.2.2.1 ha.1 hb.2.1 hb.2.2.1 hb.1
      hc.2.1 hc.2.2.1 hc.1 hd.2.1 hd.2.2.1 hd.1
  have hcr : clean_revision r st = ({ r with userid := ipUserid r.user }, st) := by
    unfold clean_revision
    simp [hhid, hanon, hCS, hip]
  have hquad : (ipUserid r.user).data = padOct a ++ (padOct b ++ (padOct c ++ padOct d)) :=
    ipUserid_quad r.user a b c d hdata ha.1 hb.1 hc.1 hd.1
  have hallpad : ∀ o : List Char, o.all isDigitCh = true →
      (padOct o).all isDigitCh = true := by
    intro o ho
    rw [padOct, List.all_append, Bool.and_eq_true]
    refine ⟨?_, ho⟩
    apply List.all_eq_true.mpr
    intro x hx
    rw [List.eq_of_mem_replicate hx]
    decide
  refine ⟨by rw [hcr], by rw [hcr], by rw [hcr], ?_, ?_, ?_⟩
  · show (ipUserid r.user).data.length = 12
    rw [hquad]
    simp [padOct_length a ha.2.2.1, padOct_length b hb.2.2.1,
      padOct_length c hc.2.2.1, padOct_length d hd.2.2.1]
  · rw [hquad]
    simp [List.all_append, hallpad a ha.1, hallpad b hb.1, hallpad c hc.1, hallpad d hd.1]
  · intro u2 a2 b2 c2 d2 hu2 ha2 hb2 hc2 hd2 heq
    have hq2 : (ipUserid u2).data = padOct a2 ++ (padOct b2 ++ (padOct c2 ++ padOct d2)) :=
      ipUserid_quad u2 a2 b2 c2 d2 hu2 ha2.1 hb2.1 hc2.1 hd2.1
    have hdataeq : padOct a2 ++ (padOct b2 ++ (padOct c2 ++ padOct d2))
        = padOct a ++ (padOct b ++ (padOct c ++ padOct d)) := by
      rw [← hq2, ← hquad, heq]
    obtain ⟨e1, e2, e3, e4⟩ :=
      encode4_inj a2 b2 c2 d2 a b c d ha2 hb2 hc2 hd2 ha hb hc hd hdataeq
    apply String.ext
    rw [hu2, hdata, e1, e2, e3, e4]

/-- Witness for the amended Claim C10 theorem on the record with user
`"1.2.3.4"`. -/
theorem clean_revision_bare_ip_witness :
    (c9ip.anon = true ∧ c9ip.userhidden = false ∧
      c9ip.user.data = mkIpData ['1'] ['2'] ['3'] ['4'] ∧
      canonOct ['1'] ∧ canonOct ['2'] ∧ canonOct ['3'] ∧ canonOct ['4']) ∧
    ((clean_revision c9ip st0).1.user = c9ip.user ∧
     (clean_revision c9ip st0).2 = st0 ∧
     (clean_revision c9ip st0).1.userid = ipUserid c9ip.user ∧
     (ipUserid c9ip.user).length = 12 ∧
     (ipUserid c9ip.user).data.all isDigitCh = true ∧
     (∀ (u2 : String) (a2 b2 c2 d2 : List Char),
       u2.data = mkIpData a2 b2 c2 d2 →
       canonOct a2 → canonOct b2 → canonOct c2 → canonOct d2 →
       ipUserid u2 = ipUserid c9ip.user → u2 = c9ip.user)) :=
  ⟨⟨by decide, by decide, by decide, by decide, by decide, by decide, by decide⟩,
   clean_revision_bare_ip c9ip st0 ['1'] ['2'] ['3'] ['4'] (by decide) (by decide)
     (by decide) (by decide) (by decide) (by decide) (by decide)⟩

